import Mathlib

/-!
Verification development for the paint-quality analysis application.

The repository ships a React/TypeScript frontend (services/api.ts,
ResultsPage, HomePage, ProjectPage) and documents a Python analysis
backend. The frontend helper functions below are translated directly
from the TypeScript source. The analysis engine itself is not part of
the checked-in sources, so its pipeline is modelled from the design
document, component by component, and the stated testable properties
are settled against that model.
-/

namespace PaintQuality

/-! ## Frontend helpers, translated from the TypeScript source -/

/-- The JavaScript startsWith test on strings, modelled over the
underlying character lists. -/
def strStartsWith (s p : String) : Bool := p.data.isPrefixOf s.data

/-- Translated from apiService.getImageUrl in services/api.ts: if the
path starts with "http" it is returned unchanged, otherwise the API
base URL, a slash and the path are concatenated. The base URL constant
is abstracted as a parameter. -/
def getImageUrl (apiBase : String) (path : String) : String :=
  if strStartsWith path "http" then path
  else apiBase ++ "/" ++ path

/-- Translated from getSeverityLabel in ResultsPage: severities below
0.3 are labelled Minor, severities below 0.7 are labelled Moderate,
all others Severe. Numbers are modelled as rationals. -/
def getSeverityLabel (severity : ℚ) : String :=
  if severity < 3/10 then "Minor"
  else if severity < 7/10 then "Moderate"
  else "Severe"

/-- Translated from getSeverityColor in ResultsPage: the same three
intervals as getSeverityLabel, mapped to chip colors. -/
def getSeverityColor (severity : ℚ) : String :=
  if severity < 3/10 then "success"
  else if severity < 7/10 then "warning"
  else "error"

/-! ## Engine data model, modelled from the design document -/

/-- Modelled from the spec: one pixel of an in-memory raster with
three 8-bit channels; channel values are modelled as rationals. -/
structure Pixel where
  r : ℚ
  g : ℚ
  b : ℚ
deriving DecidableEq

/-- Modelled from the spec: an in-memory raster image with a width,
a height and per-pixel channel values stored row major. -/
structure Image where
  width : ℕ
  height : ℕ
  rowsData : List (List Pixel)
deriving DecidableEq

/-- Pixel lookup with a neutral default outside the stored data. -/
def Image.pixAt (img : Image) (x y : ℕ) : Pixel :=
  ((img.rowsData.getD y []).getD x ⟨0, 0, 0⟩)

/-- Modelled from the spec: the image decoding collaborator, which
turns raw bytes into a raster exposing width, height and per-pixel
samples. The modelled wire format is width, height, then three
channel values per pixel in row-major order; anything else is
undecodable. -/
def decodeBytes (bytes : List ℕ) : Option Image :=
  match bytes with
  | w :: h :: rest =>
      if rest.length = 3 * w * h then
        some ⟨w, h,
          (List.range h).map (fun y =>
            (List.range w).map (fun x =>
              ⟨(rest.getD (3 * (y * w + x)) 0 : ℕ),
               (rest.getD (3 * (y * w + x) + 1) 0 : ℕ),
               (rest.getD (3 * (y * w + x) + 2) 0 : ℕ)⟩))⟩
      else none
  | _ => none

/-- Modelled from the spec: the loader resamples the after image to
the before image dimensions so grid coordinates are directly
comparable; when the dimensions already match the image is returned
unchanged. The spec does not fix the resampling kernel, so sampling
by coordinate scaling stands in for it. -/
def resizeTo (tw th : ℕ) (img : Image) : Image :=
  if img.width = tw ∧ img.height = th then img
  else
    ⟨tw, th,
      (List.range th).map (fun y =>
        (List.range tw).map (fun x =>
          img.pixAt (x * img.width / tw) (y * img.height / th)))⟩

/-- Modelled from the spec: the error taxonomy of the engine. -/
inductive ErrorKind where
  | decodeError
  | validationError
  | dimensionMismatchError
  | internalComputationError
deriving DecidableEq

/-- Modelled from the spec: a failure outcome carrying the error kind
and a human-readable message. -/
structure AnalysisError where
  kind : ErrorKind
  message : String
deriving DecidableEq

/-- Modelled from the spec: engine configuration, all fields explicit.
Weights and thresholds are rationals, sizes are naturals. -/
structure Config where
  cellSize : ℕ
  colorChangedThreshold : ℚ
  coverageLowThreshold : ℚ
  coverageHighThreshold : ℚ
  fusionColorWeight : ℚ
  fusionCoverageWeight : ℚ
  fusionTextureWeight : ℚ
  detectionThreshold : ℚ
  scoreChangeWeight : ℚ
  scoreCoverageWeight : ℚ
  scoreTextureWeight : ℚ
  maxUploadBytes : ℕ
  minDimension : ℕ
deriving DecidableEq

/-- A configuration is valid when the cell size and minimum dimension
are positive, the fusion weights are nonnegative with positive sum,
the detection thresholds are nonnegative, and the signed low coverage
threshold is nonpositive, since an unchanged surface must not count
as poor coverage. -/
def Config.Valid (cfg : Config) : Prop :=
  0 < cfg.cellSize ∧
  0 < cfg.minDimension ∧
  0 ≤ cfg.fusionColorWeight ∧
  0 ≤ cfg.fusionCoverageWeight ∧
  0 ≤ cfg.fusionTextureWeight ∧
  0 < cfg.fusionColorWeight + cfg.fusionCoverageWeight + cfg.fusionTextureWeight ∧
  0 ≤ cfg.colorChangedThreshold ∧
  0 ≤ cfg.detectionThreshold ∧
  cfg.coverageLowThreshold ≤ 0

instance (cfg : Config) : Decidable cfg.Valid := by
  unfold Config.Valid; infer_instance

/-- Modelled from the spec: loading one image checks the byte size
against the configured maximum before decoding, decodes, then checks
minimum pixel dimensions, failing with the matching error kind and a
message naming the image. -/
def loadImage (cfg : Config) (which : String) (bytes : List ℕ) :
    Except AnalysisError Image :=
  if cfg.maxUploadBytes < bytes.length then
    .error ⟨.validationError, which ++ " image exceeds the maximum upload size"⟩
  else
    match decodeBytes bytes with
    | none => .error ⟨.decodeError, which ++ " image could not be decoded"⟩
    | some img =>
        if img.width < cfg.minDimension ∨ img.height < cfg.minDimension then
          .error ⟨.validationError, which ++ " image is below the minimum dimensions"⟩
        else .ok img

/-- Modelled from the spec: the loader decodes and validates both
images and resamples the after image to the before image dimensions. -/
def loadPair (cfg : Config) (beforeBytes afterBytes : List ℕ) :
    Except AnalysisError (Image × Image) :=
  match loadImage cfg "before" beforeBytes with
  | .error e => .error e
  | .ok bimg =>
      match loadImage cfg "after" afterBytes with
      | .error e => .error e
      | .ok aimg => .ok (bimg, resizeTo bimg.width bimg.height aimg)

/-! ## Grid partitioner, modelled from the design document -/

/-- A rectangle in pixel coordinates. -/
structure Rect where
  x : ℕ
  y : ℕ
  w : ℕ
  h : ℕ
deriving DecidableEq

/-- Membership of a point in a rectangle. -/
def Rect.contains (rect : Rect) (px py : ℕ) : Prop :=
  rect.x ≤ px ∧ px < rect.x + rect.w ∧ rect.y ≤ py ∧ py < rect.y + rect.h

instance (rect : Rect) (px py : ℕ) : Decidable (rect.contains px py) := by
  unfold Rect.contains; infer_instance

/-- Modelled from the spec: the number of grid rows is the ceiling of
height over cell size. -/
def gridRows (height cellSize : ℕ) : ℕ := (height + cellSize - 1) / cellSize

/-- Modelled from the spec: the number of grid columns is the ceiling
of width over cell size. -/
def gridCols (width cellSize : ℕ) : ℕ := (width + cellSize - 1) / cellSize

/-- Modelled from the spec: the rectangle of the grid cell at a given
row and column, with the last row and column clipped to the image
bounds. -/
def cellRect (width height cellSize r c : ℕ) : Rect :=
  ⟨c * cellSize, r * cellSize,
   min cellSize (width - c * cellSize),
   min cellSize (height - r * cellSize)⟩

/-- All grid cell coordinates in row-major order. -/
def gridCells (width height cellSize : ℕ) : List (ℕ × ℕ) :=
  ((List.range (gridRows height cellSize)).map (fun r =>
    (List.range (gridCols width cellSize)).map (fun c => (r, c)))).flatten

/-! ## Per-cell analyzers, modelled from the design document -/

/-- Sum of a rational-valued function over a w by h index box. -/
def sumOver (w h : ℕ) (f : ℕ → ℕ → ℚ) : ℚ :=
  ((List.range h).map (fun dy =>
    ((List.range w).map (fun dx => f dx dy)).sum)).sum

/-- Mean of a rational-valued function over a w by h index box; an
empty box contributes the neutral value zero, as the spec prescribes
for degenerate cells. -/
def meanOver (w h : ℕ) (f : ℕ → ℕ → ℚ) : ℚ :=
  if w * h = 0 then 0 else sumOver w h f / (w * h)

/-- Clamp a rational to the unit interval. -/
def clamp01 (q : ℚ) : ℚ := max 0 (min 1 q)

/-- Modelled from the spec: the per-cell mean of one color channel. -/
def meanChannel (img : Image) (rect : Rect) (ch : Pixel → ℚ) : ℚ :=
  meanOver rect.w rect.h (fun dx dy => ch (img.pixAt (rect.x + dx) (rect.y + dy)))

/-- Modelled from the spec: luminance of a pixel, the mean of its
three channels. -/
def luminance (p : Pixel) : ℚ := (p.r + p.g + p.b) / 3

/-- Modelled from the spec: the per-cell mean luminance. -/
def meanIntensity (img : Image) (rect : Rect) : ℚ :=
  meanOver rect.w rect.h (fun dx dy => luminance (img.pixAt (rect.x + dx) (rect.y + dy)))

/-- Modelled from the spec: the per-cell local texture descriptor, the
local variance of luminance within the cell. -/
def localVariance (img : Image) (rect : Rect) : ℚ :=
  meanOver rect.w rect.h (fun dx dy =>
    (luminance (img.pixAt (rect.x + dx) (rect.y + dy)) - meanIntensity img rect) ^ 2)

/-- Modelled from the spec: the per-cell color-distance score, a
bounded distance between the per-cell mean colors of the two images,
normalized and clamped to the unit interval. The working color space
conversion is modelled as the identity. -/
def colorScore (bimg aimg : Image) (rect : Rect) : ℚ :=
  clamp01 ((|meanChannel bimg rect Pixel.r - meanChannel aimg rect Pixel.r| +
            |meanChannel bimg rect Pixel.g - meanChannel aimg rect Pixel.g| +
            |meanChannel bimg rect Pixel.b - meanChannel aimg rect Pixel.b|) / 765)

/-- Modelled from the spec: the signed per-cell intensity delta of the
coverage axis, after minus before. -/
def intensityDelta (bimg aimg : Image) (rect : Rect) : ℚ :=
  meanIntensity aimg rect - meanIntensity bimg rect

/-- Modelled from the spec: the normalized coverage score of a cell,
the absolute intensity delta scaled and clamped to the unit
interval. -/
def coverageScore (bimg aimg : Image) (rect : Rect) : ℚ :=
  clamp01 (|intensityDelta bimg aimg rect| / 255)

/-- Modelled from the spec: the normalized per-cell texture
difference, comparing the local variance descriptors of the two
images, clamped to the unit interval. -/
def textureScore (bimg aimg : Image) (rect : Rect) : ℚ :=
  clamp01 (|localVariance bimg rect - localVariance aimg rect| / 65025)

/-- Modelled from the spec: one measurement axis. -/
inductive Axis where
  | color
  | coverage
  | texture
deriving DecidableEq

/-- Modelled from the spec: the per-cell metric vector produced by the
three analyzers for one grid cell. -/
structure CellMetric where
  row : ℕ
  col : ℕ
  rect : Rect
  color : ℚ
  coverage : ℚ
  texture : ℚ
  delta : ℚ
deriving DecidableEq

/-- The metric vector of the grid cell at a given row and column. -/
def cellMetric (cellSize : ℕ) (bimg aimg : Image) (rc : ℕ × ℕ) : CellMetric :=
  let rect := cellRect bimg.width bimg.height cellSize rc.1 rc.2
  ⟨rc.1, rc.2, rect,
   colorScore bimg aimg rect,
   coverageScore bimg aimg rect,
   textureScore bimg aimg rect,
   intensityDelta bimg aimg rect⟩

/-- Modelled from the spec: the fused severity of a cell, the weighted
combination of the three normalized per-axis scores, normalized by the
total fusion weight. -/
def fusedSeverity (wc wv wt : ℚ) (m : CellMetric) : ℚ :=
  (wc * m.color + wv * m.coverage + wt * m.texture) / (wc + wv + wt)

/-- Modelled from the spec: the axis contributing the largest share of
the fused severity, with the fixed tie-break precedence color over
coverage over texture. -/
def dominantAxis (wc wv wt : ℚ) (m : CellMetric) : Axis :=
  if wv * m.coverage ≤ wc * m.color ∧ wt * m.texture ≤ wc * m.color then .color
  else if wt * m.texture ≤ wv * m.coverage then .coverage
  else .texture

/-! ## Connected-component merging, modelled from the design document -/

/-- Four-connectivity of two grid cells: same row and adjacent
columns, or same column and adjacent rows. -/
def adjCell (a b : ℕ × ℕ) : Bool :=
  (a.1 = b.1 ∧ (a.2 = b.2 + 1 ∨ b.2 = a.2 + 1)) ∨
  (a.2 = b.2 ∧ (a.1 = b.1 + 1 ∨ b.1 = a.1 + 1))

/-- One step of the flood fill: every flagged cell adjacent to the
current set and not yet in it is appended. -/
def expandStep (flagged : List (ℕ × ℕ)) (s : List (ℕ × ℕ)) : List (ℕ × ℕ) :=
  s ++ flagged.filter (fun c => c ∉ s ∧ s.any (fun d => adjCell c d))

/-- Modelled from the spec: the flood fill computing the connected
component of a seed cell within the flagged set; iterating the
expansion step as many times as there are flagged cells reaches the
fixpoint. -/
def compOf (flagged : List (ℕ × ℕ)) (x : ℕ × ℕ) : List (ℕ × ℕ) :=
  (expandStep flagged)^[flagged.length] [x]

/-- Modelled from the spec: connected-component labeling over the
grid; the flagged cells are scanned in order and each not yet seen
cell contributes the component it seeds. -/
def componentsAux (flagged : List (ℕ × ℕ)) :
    List (ℕ × ℕ) → List (ℕ × ℕ) → List (List (ℕ × ℕ))
  | [], _ => []
  | c :: pending, seen =>
      if c ∈ seen then componentsAux flagged pending seen
      else compOf flagged c :: componentsAux flagged pending (seen ++ compOf flagged c)

/-- The list of connected components of the flagged cell set. -/
def components (flagged : List (ℕ × ℕ)) : List (List (ℕ × ℕ)) :=
  componentsAux flagged flagged []

/-- Modelled from the spec: the connecting-path relation between
flagged cells, the reflexive-transitive closure of four-adjacency
inside the flagged set. -/
inductive Connected (flagged : List (ℕ × ℕ)) : ℕ × ℕ → ℕ × ℕ → Prop
  | refl (x : ℕ × ℕ) (hx : x ∈ flagged) : Connected flagged x x
  | tail (x y z : ℕ × ℕ) (h : Connected flagged x y) (hz : z ∈ flagged)
      (ha : adjCell y z = true) : Connected flagged x z

/-! ## Problem regions, modelled from the design document -/

/-- The smallest rectangle covering two rectangles. -/
def rectUnion (a b : Rect) : Rect :=
  ⟨min a.x b.x, min a.y b.y,
   max (a.x + a.w) (b.x + b.w) - min a.x b.x,
   max (a.y + a.h) (b.y + b.h) - min a.y b.y⟩

/-- The bounding box of a list of rectangles, folded from the head. -/
def boundingBox : List Rect → Rect
  | [] => ⟨0, 0, 0, 0⟩
  | r :: rs => rs.foldl rectUnion r

/-- Modelled from the spec: the closed set of issue labels. -/
inductive IssueType where
  | unevenCoverage
  | colorInconsistency
  | overApplication
  | textureVariation
deriving DecidableEq

/-- The wire encoding of an issue label, as the frontend receives
it. -/
def IssueType.code : IssueType → String
  | .unevenCoverage => "uneven_coverage"
  | .colorInconsistency => "color_inconsistency"
  | .overApplication => "over_application"
  | .textureVariation => "texture_variation"

/-- Modelled from the spec: a problem region as the frontend
AnalysisRegion interface declares it, with a bounding rectangle, a
severity, an issue label and a confidence. -/
structure AnalysisRegion where
  x : ℕ
  y : ℕ
  width : ℕ
  height : ℕ
  severity : ℚ
  issue_type : String
  confidence : ℚ
deriving DecidableEq

/-- Modelled from the spec: the axis driving a region, the axis with
the largest summed contribution over the member cells, ties broken by
the fixed precedence color over coverage over texture. -/
def regionAxis (wc wv wt : ℚ) (ms : List CellMetric) : Axis :=
  let sc := (ms.map (fun m => wc * m.color)).sum
  let sv := (ms.map (fun m => wv * m.coverage)).sum
  let st := (ms.map (fun m => wt * m.texture)).sum
  if sv ≤ sc ∧ st ≤ sc then .color
  else if st ≤ sv then .coverage
  else .texture

/-- Modelled from the spec: the issue label of a region; the driving
axis decides the label, and a coverage-driven region whose mean
intensity delta exceeds the high threshold is labelled over
application instead of uneven coverage. -/
def classifyRegion (wc wv wt highThr : ℚ) (ms : List CellMetric) : IssueType :=
  match regionAxis wc wv wt ms with
  | .color => .colorInconsistency
  | .texture => .textureVariation
  | .coverage =>
      if highThr < (ms.map (fun m => m.delta)).sum / ms.length then .overApplication
      else .unevenCoverage

/-- Modelled from the spec: a problem region built from the member
cells of one connected component; the bounding box is the union of
the member rectangles, the severity the maximum member fused
severity, and the confidence the fraction of member cells agreeing
with the driving axis. -/
def mkRegion (wc wv wt highThr : ℚ) (ms : List CellMetric) : AnalysisRegion :=
  let bb := boundingBox (ms.map (fun m => m.rect))
  let ax := regionAxis wc wv wt ms
  ⟨bb.x, bb.y, bb.w, bb.h,
   (ms.map (fusedSeverity wc wv wt)).foldl max 0,
   (classifyRegion wc wv wt highThr ms).code,
   (ms.filter (fun m => dominantAxis wc wv wt m = ax)).length / ms.length⟩

/-! ## Global statistics, score and recommendations -/

/-- Modelled from the spec: global color statistics, the mean color
difference across cells and the percentage of cells whose color
distance exceeds the changed threshold. Field names follow the
frontend payload. -/
structure ColorAnalysis where
  mean_color_difference : ℚ
  change_percentage : ℚ
deriving DecidableEq

/-- Modelled from the spec: global coverage statistics. -/
structure CoverageAnalysis where
  mean_intensity_change : ℚ
  poor_coverage_percentage : ℚ
deriving DecidableEq

/-- Modelled from the spec: global texture statistics. -/
structure TextureAnalysis where
  texture_consistency_score : ℚ
  mean_texture_difference : ℚ
deriving DecidableEq

/-- Mean of a list of rationals, zero for the empty list. -/
def listMean (xs : List ℚ) : ℚ := xs.sum / xs.length

/-- Percentage of a list satisfying a predicate, zero for the empty
list. -/
def listPercent (xs : List ℚ) (p : ℚ → Bool) : ℚ :=
  100 * ((xs.filter p).length : ℚ) / xs.length

/-- Modelled from the spec: global color statistics over the per-cell
metrics. -/
def colorStats (changedThr : ℚ) (ms : List CellMetric) : ColorAnalysis :=
  ⟨listMean (ms.map (fun m => m.color)),
   listPercent (ms.map (fun m => m.color)) (fun q => changedThr < q)⟩

/-- Modelled from the spec: global coverage statistics over the
per-cell metrics. -/
def coverageStats (lowThr : ℚ) (ms : List CellMetric) : CoverageAnalysis :=
  ⟨listMean (ms.map (fun m => m.delta)),
   listPercent (ms.map (fun m => m.delta)) (fun q => q < lowThr)⟩

/-- Modelled from the spec: global texture statistics over the
per-cell metrics; the consistency score is one minus the mean
per-cell texture difference. -/
def textureStats (ms : List CellMetric) : TextureAnalysis :=
  ⟨1 - listMean (ms.map (fun m => m.texture)),
   listMean (ms.map (fun m => m.texture))⟩

/-- Modelled from the spec: the overall score starts at 100, is
penalized by the weighted change percentage, poor coverage percentage
and texture inconsistency, and is clamped to the closed interval from
0 to 100. -/
def overallScore (w1 w2 w3 : ℚ) (ca : ColorAnalysis) (va : CoverageAnalysis)
    (ta : TextureAnalysis) : ℚ :=
  max 0 (min 100
    (100 - w1 * ca.change_percentage - w2 * va.poor_coverage_percentage -
      w3 * (1 - ta.texture_consistency_score)))

/-- Modelled from the spec: one entry of the recommendation rule
table, a condition on the global statistics and region list paired
with the output text. -/
structure RecommendationRule where
  applies : ColorAnalysis → CoverageAnalysis → TextureAnalysis → List AnalysisRegion → Bool
  text : String

/-- Modelled from the spec: the recommendation rule table as ordered
declarative data; output order follows declaration order, not
discovery order. -/
def recommendationRules : List RecommendationRule :=
  [⟨fun ca _ _ _ => decide (15 < ca.change_percentage),
    "Color varies noticeably across the surface; apply an additional even coat"⟩,
   ⟨fun _ va _ _ => decide (10 < va.poor_coverage_percentage),
    "Several areas show insufficient paint; touch up the thin regions"⟩,
   ⟨fun _ _ ta _ => decide (ta.texture_consistency_score < 7/10),
    "Texture is uneven; keep a wet edge and a consistent roller technique"⟩,
   ⟨fun _ _ _ regs => decide (2 < (regs.filter
      (fun r => r.issue_type = IssueType.overApplication.code)).length),
    "Multiple areas show excess paint; use thinner coats"⟩,
   ⟨fun _ _ _ regs => regs.isEmpty,
    "No significant issues detected; the finish meets the quality bar"⟩]

/-- Modelled from the spec: generate the recommendation list by
filtering the rule table in declaration order. -/
def recommendProposals (ca : ColorAnalysis) (va : CoverageAnalysis)
    (ta : TextureAnalysis) (regs : List AnalysisRegion) : List String :=
  (recommendationRules.filter (fun rule => rule.applies ca va ta regs)).map
    (fun rule => rule.text)


/-! ## Pipeline assembly -/

/-- Modelled from the spec: the terminal artifact of one pipeline run,
mirroring the frontend AnalysisResult interface. -/
structure AnalysisOk where
  overall_score : ℚ
  issues_detected : ℕ
  color_analysis : ColorAnalysis
  coverage_analysis : CoverageAnalysis
  texture_analysis : TextureAnalysis
  problem_regions : List AnalysisRegion
  recommendations : List String
deriving DecidableEq

/-- The per-cell metrics of every grid cell, in row-major order. -/
def allMetrics (cellSize : ℕ) (bimg aimg : Image) : List CellMetric :=
  (gridCells bimg.width bimg.height cellSize).map (cellMetric cellSize bimg aimg)

/-- Modelled from the spec: a cell is flagged when its fused severity
exceeds the detection threshold. -/
def flaggedCells (wc wv wt detThr : ℚ) (cellSize : ℕ) (bimg aimg : Image) :
    List (ℕ × ℕ) :=
  (gridCells bimg.width bimg.height cellSize).filter (fun rc =>
    detThr < fusedSeverity wc wv wt (cellMetric cellSize bimg aimg rc))

/-- Modelled from the spec: the problem regions of an image pair, one
region per connected component of the flagged cell set, in scan
order. -/
def problemRegions (wc wv wt detThr highThr : ℚ) (cellSize : ℕ)
    (bimg aimg : Image) : List AnalysisRegion :=
  (components (flaggedCells wc wv wt detThr cellSize bimg aimg)).map
    (fun comp => mkRegion wc wv wt highThr (comp.map (cellMetric cellSize bimg aimg)))

/-- Modelled from the spec: the full analysis of a normalized image
pair, assembling the global statistics, the problem regions, the
overall score and the recommendations. -/
def analyzeImages (cfg : Config) (bimg aimg : Image) : AnalysisOk :=
  let ms := allMetrics cfg.cellSize bimg aimg
  let ca := colorStats cfg.colorChangedThreshold ms
  let va := coverageStats cfg.coverageLowThreshold ms
  let ta := textureStats ms
  let regs := problemRegions cfg.fusionColorWeight cfg.fusionCoverageWeight
    cfg.fusionTextureWeight cfg.detectionThreshold cfg.coverageHighThreshold
    cfg.cellSize bimg aimg
  ⟨overallScore cfg.scoreChangeWeight cfg.scoreCoverageWeight cfg.scoreTextureWeight
     ca va ta,
   regs.length, ca, va, ta, regs,
   recommendProposals ca va ta regs⟩

/-- Modelled from the spec: the single logical operation the core
exposes; it loads and validates both byte buffers and either returns
the failure as a pure value or analyzes the normalized pair. -/
def analyze (cfg : Config) (beforeBytes afterBytes : List ℕ) :
    Except AnalysisError AnalysisOk :=
  match loadPair cfg beforeBytes afterBytes with
  | .error e => .error e
  | .ok (bimg, aimg) => .ok (analyzeImages cfg bimg aimg)

/-! ## Theorems -/

/-- C9: getImageUrl returns the path unchanged when it starts with
"http", and otherwise prefixes the API base URL and a slash; it is a
pure total function of its argument and the base URL constant. -/
theorem getImageUrl_spec (apiBase path : String) :
    (strStartsWith path "http" = true → getImageUrl apiBase path = path) ∧
    (strStartsWith path "http" = false →
      getImageUrl apiBase path = apiBase ++ "/" ++ path) := by
  unfold getImageUrl
  constructor
  · intro h; simp [h]
  · intro h; simp [h]

/-- Witness for C9 at concrete inputs covering both branches. -/
theorem getImageUrl_spec_witness :
    getImageUrl "http://localhost:8000" "uploads/before.png" =
      "http://localhost:8000/uploads/before.png" ∧
    getImageUrl "http://localhost:8000" "http://cdn.example/x.png" =
      "http://cdn.example/x.png" := by
  constructor
  · exact (getImageUrl_spec "http://localhost:8000" "uploads/before.png").2 (by decide)
  · exact (getImageUrl_spec "http://localhost:8000" "http://cdn.example/x.png").1 (by decide)

/-- C10: the severity label is Minor exactly below 0.3, Moderate
exactly on the interval from 0.3 inclusive to 0.7 exclusive, Severe
exactly from 0.7 on, and the severity color returns success, warning
and error on exactly the same three intervals, so label and color
always agree. -/
theorem severity_classifiers_agree (s : ℚ) :
    (getSeverityLabel s = "Minor" ↔ s < 3/10) ∧
    (getSeverityLabel s = "Moderate" ↔ (3/10 ≤ s ∧ s < 7/10)) ∧
    (getSeverityLabel s = "Severe" ↔ 7/10 ≤ s) ∧
    (getSeverityColor s = "success" ↔ getSeverityLabel s = "Minor") ∧
    (getSeverityColor s = "warning" ↔ getSeverityLabel s = "Moderate") ∧
    (getSeverityColor s = "error" ↔ getSeverityLabel s = "Severe") := by
  unfold getSeverityLabel getSeverityColor
  rcases lt_or_le s (3/10) with h1 | h1
  · have h2 : s < 7/10 := h1.trans (by norm_num)
    rw [if_pos h1, if_pos h1]
    exact ⟨iff_of_true rfl h1,
      iff_of_false (by decide) (fun h => absurd h.1 (not_le.mpr h1)),
      iff_of_false (by decide) (not_le.mpr (h1.trans (by norm_num))),
      iff_of_true rfl rfl,
      iff_of_false (by decide) (by decide),
      iff_of_false (by decide) (by decide)⟩
  · rcases lt_or_le s (7/10) with h2 | h2
    · rw [if_neg (not_lt.mpr h1), if_pos h2, if_neg (not_lt.mpr h1), if_pos h2]
      exact ⟨iff_of_false (by decide) (not_lt.mpr h1),
        iff_of_true rfl ⟨h1, h2⟩,
        iff_of_false (by decide) (not_le.mpr h2),
        iff_of_false (by decide) (by decide),
        iff_of_true rfl rfl,
        iff_of_false (by decide) (by decide)⟩
    · have h1n : ¬ s < 3/10 := not_lt.mpr (le_trans (by norm_num) h2)
      rw [if_neg h1n, if_neg (not_lt.mpr h2), if_neg h1n, if_neg (not_lt.mpr h2)]
      exact ⟨iff_of_false (by decide) h1n,
        iff_of_false (by decide) (fun h => absurd h.2 (not_lt.mpr h2)),
        iff_of_true rfl h2,
        iff_of_false (by decide) (by decide),
        iff_of_false (by decide) (by decide),
        iff_of_true rfl rfl⟩

/-! ## Grid lemmas -/

/-- Ceiling division times the divisor covers the dividend. -/
lemma le_ceil_mul (w cs : ℕ) (hcs : 0 < cs) : w ≤ ((w + cs - 1) / cs) * cs := by
  have h := Nat.div_add_mod (w + cs - 1) cs
  have hm : (w + cs - 1) % cs < cs := Nat.mod_lt _ hcs
  rw [Nat.mul_comm]
  generalize hk : cs * ((w + cs - 1) / cs) = K at h ⊢
  omega

/-- Ceiling division is tight from above. -/
lemma ceil_mul_lt (w cs : ℕ) (hcs : 0 < cs) :
    ((w + cs - 1) / cs) * cs < w + cs := by
  have h := Nat.div_mul_le_self (w + cs - 1) cs
  omega

/-- A point left of the image right edge lands in a column index
below the column count. -/
lemma div_lt_gridCols (px w cs : ℕ) (hcs : 0 < cs) (hpx : px < w) :
    px / cs < gridCols w cs := by
  rw [Nat.div_lt_iff_lt_mul hcs]
  exact lt_of_lt_of_le hpx (le_ceil_mul w cs hcs)

/-- The home cell of a point contains it. -/
lemma cellRect_contains_self (width height cs px py : ℕ) (hcs : 0 < cs)
    (hx : px < width) (hy : py < height) :
    (cellRect width height cs (py / cs) (px / cs)).contains px py := by
  have hx1 : px / cs * cs ≤ px := Nat.div_mul_le_self px cs
  have hy1 : py / cs * cs ≤ py := Nat.div_mul_le_self py cs
  have hx2 : px < px / cs * cs + cs := by
    have h := Nat.div_add_mod px cs
    have hm : px % cs < cs := Nat.mod_lt _ hcs
    rw [Nat.mul_comm (px / cs) cs]
    generalize hk : cs * (px / cs) = K at h ⊢
    omega
  have hy2 : py < py / cs * cs + cs := by
    have h := Nat.div_add_mod py cs
    have hm : py % cs < cs := Nat.mod_lt _ hcs
    rw [Nat.mul_comm (py / cs) cs]
    generalize hk : cs * (py / cs) = K at h ⊢
    omega
  refine ⟨hx1, ?_, hy1, ?_⟩ <;>· simp only [cellRect]; omega

/-- A cell of the grid lies within the image bounds. -/
lemma cellRect_within (width height cs r c : ℕ) (hcs : 0 < cs)
    (hr : r < gridRows height cs) (hc : c < gridCols width cs) :
    (cellRect width height cs r c).x + (cellRect width height cs r c).w ≤ width ∧
    (cellRect width height cs r c).y + (cellRect width height cs r c).h ≤ height := by
  have hcw : (c + 1) * cs ≤ gridCols width cs * cs :=
    Nat.mul_le_mul_right cs hc
  have hrw : (r + 1) * cs ≤ gridRows height cs * cs :=
    Nat.mul_le_mul_right cs hr
  have hcu := ceil_mul_lt width cs hcs
  have hru := ceil_mul_lt height cs hcs
  unfold gridCols at hcw hcu
  unfold gridRows at hrw hru
  simp only [cellRect]
  constructor
  · generalize hk : ((width + cs - 1) / cs) * cs = K at hcw hcu
    have : c * cs + cs ≤ K := by
      calc c * cs + cs = (c + 1) * cs := by ring
      _ ≤ K := hcw
    omega
  · generalize hk : ((height + cs - 1) / cs) * cs = K at hrw hru
    have : r * cs + cs ≤ K := by
      calc r * cs + cs = (r + 1) * cs := by ring
      _ ≤ K := hrw
    omega

/-- Any cell containing a point is the home cell of the point. -/
lemma cellRect_contains_unique (width height cs px py r c : ℕ) (hcs : 0 < cs)
    (hmem : (cellRect width height cs r c).contains px py) :
    r = py / cs ∧ c = px / cs := by
  obtain ⟨h1, h2, h3, h4⟩ := hmem
  simp only [cellRect] at h1 h2 h3 h4
  constructor
  · refine (Nat.div_eq_of_lt_le ?_ ?_).symm
    · exact h3
    · have : py < r * cs + cs := by omega
      calc py < r * cs + cs := this
      _ = (r + 1) * cs := by ring
  · refine (Nat.div_eq_of_lt_le ?_ ?_).symm
    · exact h1
    · have : px < c * cs + cs := by omega
      calc px < c * cs + cs := this
      _ = (c + 1) * cs := by ring

/-- C4: for every width, height and positive cell size, the grid
partitioner produces the ceiling counts of rows and columns, every
cell lies within the image bounds, and every point of the image
rectangle lies in exactly one cell, so the cells tile the image with
no gaps and no overlaps, the last row and column clipped to the
bounds. -/
theorem grid_tiling (width height cs : ℕ) (hcs : 0 < cs) :
    gridRows height cs = height ⌈/⌉ cs ∧
    gridCols width cs = width ⌈/⌉ cs ∧
    (∀ r c, r < gridRows height cs → c < gridCols width cs →
      (cellRect width height cs r c).x + (cellRect width height cs r c).w ≤ width ∧
      (cellRect width height cs r c).y + (cellRect width height cs r c).h ≤ height) ∧
    (∀ px py, px < width → py < height →
      ∃! rc : ℕ × ℕ, rc.1 < gridRows height cs ∧ rc.2 < gridCols width cs ∧
        (cellRect width height cs rc.1 rc.2).contains px py) := by
  refine ⟨rfl, rfl, ?_, ?_⟩
  · intro r c hr hc
    exact cellRect_within width height cs r c hcs hr hc
  · intro px py hx hy
    refine ⟨(py / cs, px / cs),
      ⟨div_lt_gridCols py height cs hcs hy, div_lt_gridCols px width cs hcs hx,
        cellRect_contains_self width height cs px py hcs hx hy⟩, ?_⟩
    rintro ⟨r, c⟩ ⟨-, -, hmem⟩
    have h := cellRect_contains_unique width height cs px py r c hcs hmem
    simp [h.1, h.2]

/-- Witness for C4 on a 400 by 300 image with cell size 50. -/
theorem grid_tiling_witness :
    0 < 50 ∧ gridRows 300 50 = 6 ∧ gridCols 400 50 = 8 ∧
    (cellRect 400 300 50 5 7).contains 399 299 := by
  have h := grid_tiling 400 300 50 (by decide)
  refine ⟨by decide, by decide, by decide, ?_⟩
  obtain ⟨-, -, -, hpt⟩ := h
  have := (hpt 399 299 (by decide) (by decide)).exists
  obtain ⟨⟨r, c⟩, hr, hc, hmem⟩ := this
  have huniq := cellRect_contains_unique 400 300 50 399 299 r c (by decide) hmem
  rw [huniq.1, huniq.2] at hmem
  simpa using hmem

/-! ## Connected-component lemmas -/

/-- Four-adjacency is symmetric. -/
lemma adjCell_symm (a b : ℕ × ℕ) : adjCell a b = adjCell b a := by
  unfold adjCell
  rcases a with ⟨a1, a2⟩
  rcases b with ⟨b1, b2⟩
  simp only [decide_eq_decide]
  constructor <;>· rintro (⟨h1, h2⟩ | ⟨h1, h2⟩) <;> [left; right] <;> omega

/-- Membership in one expansion step. -/
lemma mem_expandStep {flagged s : List (ℕ × ℕ)} {c : ℕ × ℕ} :
    c ∈ expandStep flagged s ↔
      c ∈ s ∨ (c ∈ flagged ∧ c ∉ s ∧ ∃ d ∈ s, adjCell c d = true) := by
  unfold expandStep
  simp [List.mem_filter, List.any_eq_true]

/-- The expansion step keeps the current set. -/
lemma subset_expandStep (flagged s : List (ℕ × ℕ)) : s ⊆ expandStep flagged s :=
  fun _ h => mem_expandStep.mpr (Or.inl h)

/-- The expansion step is monotone with respect to membership. -/
lemma expandStep_mono {flagged s t : List (ℕ × ℕ)} (hst : s ⊆ t) :
    expandStep flagged s ⊆ expandStep flagged t := by
  intro c hc
  rcases mem_expandStep.mp hc with h | ⟨hf, -, d, hd, hadj⟩
  · exact mem_expandStep.mpr (Or.inl (hst h))
  · by_cases hct : c ∈ t
    · exact mem_expandStep.mpr (Or.inl hct)
    · exact mem_expandStep.mpr (Or.inr ⟨hf, hct, d, hst hd, hadj⟩)

/-- Iterating the expansion step is monotone in the iteration count. -/
lemma iterate_expand_mono (flagged s : List (ℕ × ℕ)) {k m : ℕ} (hkm : k ≤ m) :
    (expandStep flagged)^[k] s ⊆ (expandStep flagged)^[m] s := by
  induction m with
  | zero => simp_all
  | succ m ih =>
      rcases Nat.lt_or_ge k (m + 1) with h | h
      · intro a ha
        rw [Function.iterate_succ_apply']
        exact subset_expandStep _ _ (ih (Nat.lt_succ_iff.mp h) ha)
      · have : k = m + 1 := le_antisymm hkm h
        subst this
        exact fun a ha => ha

/-- Everything the flood fill reaches from a flagged seed is connected
to the seed. -/
lemma mem_iterate_connected {flagged : List (ℕ × ℕ)} {x : ℕ × ℕ}
    (hx : x ∈ flagged) (k : ℕ) :
    ∀ y ∈ (expandStep flagged)^[k] [x], Connected flagged x y := by
  induction k with
  | zero =>
      intro y hy
      simp only [Function.iterate_zero_apply, List.mem_singleton] at hy
      subst hy
      exact Connected.refl _ hx
  | succ k ih =>
      intro y hy
      rw [Function.iterate_succ_apply'] at hy
      rcases mem_expandStep.mp hy with h | ⟨hf, -, d, hd, hadj⟩
      · exact ih y h
      · exact Connected.tail x d y (ih d hd) hf (by rw [← adjCell_symm]; exact hadj)

/-- Everything connected to the seed is reached by some number of
expansion steps. -/
lemma connected_mem_iterate {flagged : List (ℕ × ℕ)} {x y : ℕ × ℕ}
    (h : Connected flagged x y) :
    ∃ k, y ∈ (expandStep flagged)^[k] [x] := by
  induction h with
  | refl hz => exact ⟨0, by simp⟩
  | tail b c hab hc hadj ih =>
      obtain ⟨k, hk⟩ := ih
      by_cases hbk : c ∈ (expandStep flagged)^[k] [x]
      · exact ⟨k, hbk⟩
      · refine ⟨k + 1, ?_⟩
        rw [Function.iterate_succ_apply']
        exact mem_expandStep.mpr
          (Or.inr ⟨hc, hbk, b, hk, by rw [← adjCell_symm]; exact hadj⟩)

/-- A set closed under one expansion step absorbs any number of
further steps. -/
lemma iterate_subset_of_closed {flagged s : List (ℕ × ℕ)}
    (hcl : expandStep flagged s ⊆ s) (k : ℕ) :
    (expandStep flagged)^[k] s ⊆ s := by
  induction k with
  | zero => exact fun a ha => ha
  | succ k ih =>
      rw [Function.iterate_succ_apply']
      exact fun a ha => hcl (expandStep_mono ih ha)

/-- Filter length is monotone in the predicate. -/
lemma length_filter_mono_le {α : Type} (l : List α) (p q : α → Bool)
    (hpq : ∀ a ∈ l, p a = true → q a = true) :
    (l.filter p).length ≤ (l.filter q).length := by
  induction l with
  | nil => simp
  | cons b t ih =>
      have ht : ∀ a ∈ t, p a = true → q a = true :=
        fun a ha => hpq a (List.mem_cons_of_mem b ha)
      have ih2 := ih ht
      cases hpb : p b with
      | true =>
          have hqb : q b = true := hpq b (List.mem_cons_self b t) hpb
          simp only [List.filter_cons, hpb, hqb, if_true, List.length_cons]
          omega
      | false =>
          cases hqb : q b with
          | true =>
              simp only [List.filter_cons, hpb, hqb]
              simp only [Bool.false_eq_true, if_false, if_true, List.length_cons]
              omega
          | false =>
              simp only [List.filter_cons, hpb, hqb, Bool.false_eq_true, if_false]
              exact ih2

/-- Filter length grows strictly when the stronger predicate gains a
witness the weaker one misses. -/
lemma length_filter_lt {α : Type} (l : List α) (p q : α → Bool)
    (hpq : ∀ a ∈ l, p a = true → q a = true)
    (a : α) (ha : a ∈ l) (hqa : q a = true) (hpa : p a = false) :
    (l.filter p).length < (l.filter q).length := by
  induction l with
  | nil => cases ha
  | cons b t ih =>
      have ht : ∀ a ∈ t, p a = true → q a = true :=
        fun a ha => hpq a (List.mem_cons_of_mem b ha)
      rcases List.mem_cons.mp ha with rfl | hat
      · have hmono := length_filter_mono_le t p q ht
        simp only [List.filter_cons, hpa, hqa, Bool.false_eq_true, if_false, if_true,
          List.length_cons]
        omega
      · cases hpb : p b with
        | true =>
            have hqb : q b = true := hpq b (List.mem_cons_self b t) hpb
            have ih2 := ih ht hat
            simp only [List.filter_cons, hpb, hqb, if_true, List.length_cons]
            omega
        | false =>
            have ih2 := ih ht hat
            cases hqb : q b with
            | true =>
                simp only [List.filter_cons, hpb, hqb]
                simp only [Bool.false_eq_true, if_false, if_true, List.length_cons]
                omega
            | false =>
                simp only [List.filter_cons, hpb, hqb, Bool.false_eq_true, if_false]
                exact ih2

/-- Within as many steps as there are flagged cells, the flood fill
reaches a set closed under expansion. -/
lemma exists_closed_le (flagged : List (ℕ × ℕ)) (x : ℕ × ℕ) :
    ∃ k ≤ flagged.length,
      expandStep flagged ((expandStep flagged)^[k] [x]) ⊆
        (expandStep flagged)^[k] [x] := by
  by_contra hno
  push_neg at hno
  have hstep : ∀ j ≤ flagged.length, ∃ c,
      c ∈ (expandStep flagged)^[j + 1] [x] ∧
      c ∉ (expandStep flagged)^[j] [x] ∧ c ∈ flagged := by
    intro j hj
    have hnsub := hno j hj
    rw [List.subset_def] at hnsub
    push_neg at hnsub
    obtain ⟨c, hc1, hc2⟩ := hnsub
    refine ⟨c, ?_, hc2, ?_⟩
    · rw [Function.iterate_succ_apply']
      exact hc1
    · rcases mem_expandStep.mp hc1 with h | ⟨hf, -, -⟩
      · exact absurd h hc2
      · exact hf
  have hcount : ∀ j, j ≤ flagged.length + 1 →
      j ≤ ((flagged.dedup).filter
        (fun a => decide (a ∈ (expandStep flagged)^[j] [x]))).length := by
    intro j
    induction j with
    | zero => intro _; exact Nat.zero_le _
    | succ j ih =>
        intro hj1
        have hj : j ≤ flagged.length := Nat.lt_succ_iff.mp hj1
        obtain ⟨c, hc1, hc2, hcf⟩ := hstep j hj
        have hlt := length_filter_lt (flagged.dedup)
          (fun a => decide (a ∈ (expandStep flagged)^[j] [x]))
          (fun a => decide (a ∈ (expandStep flagged)^[j + 1] [x]))
          (by
            intro a _ hpa
            simp only [decide_eq_true_eq] at hpa ⊢
            exact iterate_expand_mono flagged [x] (Nat.le_succ j) hpa)
          c (List.mem_dedup.mpr hcf)
          (by simpa using hc1) (by simpa using hc2)
        exact Nat.lt_of_le_of_lt (ih (le_trans (Nat.le_succ j) hj1)) hlt
  have hbig := hcount (flagged.length + 1) (le_refl _)
  have hsmall : ((flagged.dedup).filter
      (fun a => decide (a ∈ (expandStep flagged)^[flagged.length + 1] [x]))).length ≤
      flagged.length :=
    le_trans (List.length_filter_le _ _) (List.Sublist.length_le (List.dedup_sublist _))
  omega

/-- The flood-fill component of a flagged seed is exactly the set of
cells connected to it. -/
lemma mem_compOf_iff {flagged : List (ℕ × ℕ)} {x y : ℕ × ℕ} (hx : x ∈ flagged) :
    y ∈ compOf flagged x ↔ Connected flagged x y := by
  constructor
  · intro hy
    exact mem_iterate_connected hx flagged.length y hy
  · intro h
    obtain ⟨k, hk⟩ := connected_mem_iterate h
    rcases le_or_lt k flagged.length with hkN | hkN
    · exact iterate_expand_mono flagged [x] hkN hk
    · obtain ⟨j, hjN, hcl⟩ := exists_closed_le flagged x
      have hsplit : (expandStep flagged)^[k] [x] =
          (expandStep flagged)^[k - j] ((expandStep flagged)^[j] [x]) := by
        rw [← Function.iterate_add_apply]
        congr 1
        omega
      rw [hsplit] at hk
      have hyj := iterate_subset_of_closed hcl (k - j) hk
      exact iterate_expand_mono flagged [x] hjN hyj

/-- The far end of a connection is flagged. -/
lemma Connected.mem_right {flagged : List (ℕ × ℕ)} {x y : ℕ × ℕ}
    (h : Connected flagged x y) : y ∈ flagged := by
  induction h with
  | refl hz => exact hz
  | tail b c hab hc hadj ih => exact hc

/-- The near end of a connection is flagged. -/
lemma Connected.mem_left {flagged : List (ℕ × ℕ)} {x y : ℕ × ℕ}
    (h : Connected flagged x y) : x ∈ flagged := by
  induction h with
  | refl hz => exact hz
  | tail b c hab hc hadj ih => exact ih

/-- Connections compose. -/
lemma Connected.trans {flagged : List (ℕ × ℕ)} {x y z : ℕ × ℕ}
    (h1 : Connected flagged x y) (h2 : Connected flagged y z) :
    Connected flagged x z := by
  induction h2 with
  | refl hz => exact h1
  | tail b c hab hc hadj ih => exact Connected.tail x b c ih hc hadj

/-- Connections reverse. -/
lemma Connected.symm {flagged : List (ℕ × ℕ)} {x y : ℕ × ℕ}
    (h : Connected flagged x y) : Connected flagged y x := by
  induction h with
  | refl hz => exact Connected.refl _ hz
  | tail b c hab hc hadj ih =>
      have hstep : Connected flagged c b :=
        Connected.tail c c b (Connected.refl c hc) hab.mem_right
          (by rw [← adjCell_symm]; exact hadj)
      exact hstep.trans ih

/-- Every component the labeling emits is the flood-fill component of
one of the scanned cells. -/
lemma componentsAux_shape (flagged : List (ℕ × ℕ)) :
    ∀ pending seen, pending ⊆ flagged →
      ∀ comp ∈ componentsAux flagged pending seen,
        ∃ c ∈ flagged, comp = compOf flagged c := by
  intro pending
  induction pending with
  | nil => intro seen _ comp hcomp; cases hcomp
  | cons c rest ih =>
      intro seen hsub comp hcomp
      unfold componentsAux at hcomp
      by_cases hcs : c ∈ seen
      · rw [if_pos hcs] at hcomp
        exact ih seen (fun a ha => hsub (List.mem_cons_of_mem c ha)) comp hcomp
      · rw [if_neg hcs] at hcomp
        rcases List.mem_cons.mp hcomp with rfl | hrest
        · exact ⟨c, hsub (List.mem_cons_self c rest), rfl⟩
        · exact ih (seen ++ compOf flagged c)
            (fun a ha => hsub (List.mem_cons_of_mem c ha)) comp hrest

/-- Every scanned cell ends up in an emitted component or was already
seen. -/
lemma componentsAux_covers (flagged : List (ℕ × ℕ)) :
    ∀ pending seen, ∀ c ∈ pending,
      c ∈ seen ∨ ∃ comp ∈ componentsAux flagged pending seen, c ∈ comp := by
  intro pending
  induction pending with
  | nil => intro seen c hc; cases hc
  | cons b rest ih =>
      intro seen c hc
      unfold componentsAux
      by_cases hbs : b ∈ seen
      · rw [if_pos hbs]
        rcases List.mem_cons.mp hc with rfl | hcr
        · exact Or.inl hbs
        · exact ih seen c hcr
      · rw [if_neg hbs]
        rcases List.mem_cons.mp hc with rfl | hcr
        · refine Or.inr ⟨compOf flagged c, List.mem_cons_self _ _, ?_⟩
          unfold compOf
          exact iterate_expand_mono flagged [c] (Nat.zero_le _) (by simp)
        · rcases ih (seen ++ compOf flagged b) c hcr with hseen | ⟨comp, hcomp, hccomp⟩
          · rcases List.mem_append.mp hseen with h | h
            · exact Or.inl h
            · exact Or.inr ⟨compOf flagged b, List.mem_cons_self _ _, h⟩
          · exact Or.inr ⟨comp, List.mem_cons_of_mem _ hcomp, hccomp⟩

/-- Members of any emitted component are flagged cells. -/
lemma components_member_flagged (flagged : List (ℕ × ℕ)) :
    ∀ comp ∈ components flagged, ∀ c ∈ comp, c ∈ flagged := by
  intro comp hcomp c hc
  obtain ⟨d, hd, rfl⟩ :=
    componentsAux_shape flagged flagged [] (fun a ha => ha) comp hcomp
  exact ((mem_compOf_iff hd).mp hc).mem_right

/-! ## Bounding-box lemmas -/

/-- One rectangle lying inside another. -/
def Rect.insideOf (a b : Rect) : Prop :=
  b.x ≤ a.x ∧ a.x + a.w ≤ b.x + b.w ∧ b.y ≤ a.y ∧ a.y + a.h ≤ b.y + b.h

instance (a b : Rect) : Decidable (a.insideOf b) := by
  unfold Rect.insideOf; infer_instance

/-- Both arguments lie inside their union rectangle. -/
lemma insideOf_rectUnion (a b : Rect) :
    a.insideOf (rectUnion a b) ∧ b.insideOf (rectUnion a b) := by
  unfold Rect.insideOf rectUnion
  simp only
  omega

/-- Containment of rectangles is transitive. -/
lemma Rect.insideOf_trans {a b c : Rect} (h1 : a.insideOf b) (h2 : b.insideOf c) :
    a.insideOf c := by
  unfold Rect.insideOf at h1 h2 ⊢
  omega

/-- The bounding-box fold contains its accumulator and every list
element. -/
lemma foldl_rectUnion_contains (rs : List Rect) :
    ∀ acc : Rect, acc.insideOf (rs.foldl rectUnion acc) ∧
      ∀ r ∈ rs, r.insideOf (rs.foldl rectUnion acc) := by
  induction rs with
  | nil =>
      intro acc
      refine ⟨?_, by intro r hr; cases hr⟩
      simp only [List.foldl_nil]
      unfold Rect.insideOf; omega
  | cons b t ih =>
      intro acc
      simp only [List.foldl_cons]
      obtain ⟨hacc, hmem⟩ := ih (rectUnion acc b)
      refine ⟨Rect.insideOf_trans (insideOf_rectUnion acc b).1 hacc, ?_⟩
      intro r hr
      rcases List.mem_cons.mp hr with rfl | hrt
      · exact Rect.insideOf_trans (insideOf_rectUnion acc r).2 hacc
      · exact hmem r hrt

/-- The left edge of the bounding-box fold is the running minimum of
the left edges. -/
lemma foldl_rectUnion_x (rs : List Rect) :
    ∀ acc : Rect, (rs.foldl rectUnion acc).x = (rs.map Rect.x).foldl min acc.x := by
  induction rs with
  | nil => intro acc; rfl
  | cons b t ih =>
      intro acc
      simp only [List.foldl_cons, List.map_cons, ih (rectUnion acc b)]
      rfl

/-- The top edge of the bounding-box fold is the running minimum of
the top edges. -/
lemma foldl_rectUnion_y (rs : List Rect) :
    ∀ acc : Rect, (rs.foldl rectUnion acc).y = (rs.map Rect.y).foldl min acc.y := by
  induction rs with
  | nil => intro acc; rfl
  | cons b t ih =>
      intro acc
      simp only [List.foldl_cons, List.map_cons, ih (rectUnion acc b)]
      rfl

/-- The right edge of the bounding-box fold is the running maximum of
the right edges. -/
lemma foldl_rectUnion_right (rs : List Rect) :
    ∀ acc : Rect, (rs.foldl rectUnion acc).x + (rs.foldl rectUnion acc).w =
      (rs.map (fun r => r.x + r.w)).foldl max (acc.x + acc.w) := by
  induction rs with
  | nil => intro acc; rfl
  | cons b t ih =>
      intro acc
      simp only [List.foldl_cons, List.map_cons, ih (rectUnion acc b)]
      have : (rectUnion acc b).x + (rectUnion acc b).w =
          max (acc.x + acc.w) (b.x + b.w) := by
        unfold rectUnion; simp only; omega
      rw [this]

/-- The bottom edge of the bounding-box fold is the running maximum of
the bottom edges. -/
lemma foldl_rectUnion_bottom (rs : List Rect) :
    ∀ acc : Rect, (rs.foldl rectUnion acc).y + (rs.foldl rectUnion acc).h =
      (rs.map (fun r => r.y + r.h)).foldl max (acc.y + acc.h) := by
  induction rs with
  | nil => intro acc; rfl
  | cons b t ih =>
      intro acc
      simp only [List.foldl_cons, List.map_cons, ih (rectUnion acc b)]
      have : (rectUnion acc b).y + (rectUnion acc b).h =
          max (acc.y + acc.h) (b.y + b.h) := by
        unfold rectUnion; simp only; omega
      rw [this]

/-- A running minimum is attained by the seed or by a list element. -/
lemma foldl_min_attained (l : List ℕ) : ∀ a : ℕ,
    l.foldl min a = a ∨ l.foldl min a ∈ l := by
  induction l with
  | nil => intro a; exact Or.inl rfl
  | cons b t ih =>
      intro a
      simp only [List.foldl_cons]
      rcases ih (min a b) with h | h
      · rcases min_choice a b with hm | hm
        · exact Or.inl (h.trans hm)
        · refine Or.inr ?_
          rw [h, hm]
          exact List.mem_cons_self b t
      · exact Or.inr (List.mem_cons_of_mem b h)

/-- A running maximum is attained by the seed or by a list element. -/
lemma foldl_max_attained (l : List ℕ) : ∀ a : ℕ,
    l.foldl max a = a ∨ l.foldl max a ∈ l := by
  induction l with
  | nil => intro a; exact Or.inl rfl
  | cons b t ih =>
      intro a
      simp only [List.foldl_cons]
      rcases ih (max a b) with h | h
      · rcases max_choice a b with hm | hm
        · exact Or.inl (h.trans hm)
        · refine Or.inr ?_
          rw [h, hm]
          exact List.mem_cons_self b t
      · exact Or.inr (List.mem_cons_of_mem b h)

/-- C6: two flagged cells sharing an edge always end up in the same
problem region, two flagged cells with no connecting flagged path are
never merged into one region, and the bounding box of a region is the
union of its member cell rectangles: it contains every member
rectangle and each of its four edges is attained by a member. -/
theorem region_merge_correct (flagged : List (ℕ × ℕ)) (x y : ℕ × ℕ)
    (hx : x ∈ flagged) (hy : y ∈ flagged) :
    (adjCell x y = true → ∃ comp ∈ components flagged, x ∈ comp ∧ y ∈ comp) ∧
    (¬ Connected flagged x y →
      ∀ comp ∈ components flagged, ¬ (x ∈ comp ∧ y ∈ comp)) ∧
    (∀ comp ∈ components flagged, ∀ rectOf : ℕ × ℕ → Rect,
      (∀ c ∈ comp, (rectOf c).insideOf (boundingBox (comp.map rectOf))) ∧
      (∃ c ∈ comp, (rectOf c).x = (boundingBox (comp.map rectOf)).x) ∧
      (∃ c ∈ comp, (rectOf c).y = (boundingBox (comp.map rectOf)).y) ∧
      (∃ c ∈ comp, (rectOf c).x + (rectOf c).w =
        (boundingBox (comp.map rectOf)).x + (boundingBox (comp.map rectOf)).w) ∧
      (∃ c ∈ comp, (rectOf c).y + (rectOf c).h =
        (boundingBox (comp.map rectOf)).y + (boundingBox (comp.map rectOf)).h)) := by
  refine ⟨?_, ?_, ?_⟩
  · intro hadj
    rcases componentsAux_covers flagged flagged [] x hx with hseen | ⟨comp, hcomp, hxc⟩
    · cases hseen
    · obtain ⟨d, hd, rfl⟩ :=
        componentsAux_shape flagged flagged [] (fun a ha => ha) comp hcomp
      have hdx : Connected flagged d x := (mem_compOf_iff hd).mp hxc
      have hxy : Connected flagged x y :=
        Connected.tail x x y (Connected.refl x hx) hy hadj
      exact ⟨compOf flagged d, hcomp, hxc, (mem_compOf_iff hd).mpr (hdx.trans hxy)⟩
  · intro hncon comp hcomp ⟨hxc, hyc⟩
    obtain ⟨d, hd, rfl⟩ :=
      componentsAux_shape flagged flagged [] (fun a ha => ha) comp hcomp
    have hdx : Connected flagged d x := (mem_compOf_iff hd).mp hxc
    have hdy : Connected flagged d y := (mem_compOf_iff hd).mp hyc
    exact hncon (hdx.symm.trans hdy)
  · intro comp hcomp rectOf
    obtain ⟨d, hd, rfl⟩ :=
      componentsAux_shape flagged flagged [] (fun a ha => ha) comp hcomp
    have hdmem : d ∈ compOf flagged d := (mem_compOf_iff hd).mpr (Connected.refl d hd)
    rcases hcompshape : compOf flagged d with _ | ⟨r, rs⟩
    · rw [hcompshape] at hdmem; cases hdmem
    · have hbb : boundingBox ((r :: rs).map rectOf) =
          (rs.map rectOf).foldl rectUnion (rectOf r) := by
        simp [boundingBox]
      refine ⟨?_, ?_, ?_, ?_, ?_⟩
      · intro c hc
        rw [hbb]
        obtain ⟨hacc, hmem⟩ := foldl_rectUnion_contains (rs.map rectOf) (rectOf r)
        rcases List.mem_cons.mp hc with rfl | hct
        · exact hacc
        · exact hmem (rectOf c) (List.mem_map_of_mem rectOf hct)
      · rw [hbb, foldl_rectUnion_x, List.map_map]
        rcases foldl_min_attained (rs.map (Rect.x ∘ rectOf)) (rectOf r).x with h | h
        · exact ⟨r, List.mem_cons_self r rs, h.symm⟩
        · obtain ⟨c, hc, hcx⟩ := List.mem_map.mp h
          exact ⟨c, List.mem_cons_of_mem r hc, hcx⟩
      · rw [hbb, foldl_rectUnion_y, List.map_map]
        rcases foldl_min_attained (rs.map (Rect.y ∘ rectOf)) (rectOf r).y with h | h
        · exact ⟨r, List.mem_cons_self r rs, h.symm⟩
        · obtain ⟨c, hc, hcy⟩ := List.mem_map.mp h
          exact ⟨c, List.mem_cons_of_mem r hc, hcy⟩
      · rw [hbb, foldl_rectUnion_right, List.map_map]
        rcases foldl_max_attained
            (rs.map ((fun q => q.x + q.w) ∘ rectOf)) ((rectOf r).x + (rectOf r).w)
          with h | h
        · exact ⟨r, List.mem_cons_self r rs, h.symm⟩
        · obtain ⟨c, hc, hcv⟩ := List.mem_map.mp h
          exact ⟨c, List.mem_cons_of_mem r hc, hcv⟩
      · rw [hbb, foldl_rectUnion_bottom, List.map_map]
        rcases foldl_max_attained
            (rs.map ((fun q => q.y + q.h) ∘ rectOf)) ((rectOf r).y + (rectOf r).h)
          with h | h
        · exact ⟨r, List.mem_cons_self r rs, h.symm⟩
        · obtain ⟨c, hc, hcv⟩ := List.mem_map.mp h
          exact ⟨c, List.mem_cons_of_mem r hc, hcv⟩

/-- Witness for C6: in the flagged set with two edge-sharing cells and
one isolated cell, the two adjacent cells land in one component. -/
theorem region_merge_correct_witness :
    ((0, 0) : ℕ × ℕ) ∈ ([(0, 0), (0, 1), (3, 3)] : List (ℕ × ℕ)) ∧
    ((0, 1) : ℕ × ℕ) ∈ ([(0, 0), (0, 1), (3, 3)] : List (ℕ × ℕ)) ∧
    adjCell (0, 0) (0, 1) = true ∧
    ∃ comp ∈ components ([(0, 0), (0, 1), (3, 3)] : List (ℕ × ℕ)),
      ((0, 0) : ℕ × ℕ) ∈ comp ∧ ((0, 1) : ℕ × ℕ) ∈ comp :=
  ⟨by decide, by decide, by decide,
    (region_merge_correct [(0, 0), (0, 1), (3, 3)] (0, 0) (0, 1)
      (by decide) (by decide)).1 (by decide)⟩

/-! ## Bounds lemmas for scores, severities and confidences -/

/-- The clamp stays above zero. -/
lemma clamp01_nonneg (q : ℚ) : 0 ≤ clamp01 q := le_max_left 0 _

/-- The clamp stays below one. -/
lemma clamp01_le_one (q : ℚ) : clamp01 q ≤ 1 :=
  max_le (by norm_num) (min_le_left 1 q)

/-- The three normalized axis scores of any cell metric lie in the
unit interval. -/
lemma cellMetric_scores_bounds (cellSize : ℕ) (bimg aimg : Image) (rc : ℕ × ℕ) :
    (0 ≤ (cellMetric cellSize bimg aimg rc).color ∧
      (cellMetric cellSize bimg aimg rc).color ≤ 1) ∧
    (0 ≤ (cellMetric cellSize bimg aimg rc).coverage ∧
      (cellMetric cellSize bimg aimg rc).coverage ≤ 1) ∧
    (0 ≤ (cellMetric cellSize bimg aimg rc).texture ∧
      (cellMetric cellSize bimg aimg rc).texture ≤ 1) :=
  ⟨⟨clamp01_nonneg _, clamp01_le_one _⟩,
   ⟨clamp01_nonneg _, clamp01_le_one _⟩,
   ⟨clamp01_nonneg _, clamp01_le_one _⟩⟩

/-- A weighted fusion of unit-interval scores with nonnegative weights
of positive total lies in the unit interval. -/
lemma fusedSeverity_bounds {wc wv wt : ℚ} (hwc : 0 ≤ wc) (hwv : 0 ≤ wv)
    (hwt : 0 ≤ wt) (hsum : 0 < wc + wv + wt) (m : CellMetric)
    (hc : 0 ≤ m.color ∧ m.color ≤ 1) (hv : 0 ≤ m.coverage ∧ m.coverage ≤ 1)
    (ht : 0 ≤ m.texture ∧ m.texture ≤ 1) :
    0 ≤ fusedSeverity wc wv wt m ∧ fusedSeverity wc wv wt m ≤ 1 := by
  unfold fusedSeverity
  constructor
  · apply div_nonneg _ (le_of_lt hsum)
    have h1 : 0 ≤ wc * m.color := mul_nonneg hwc hc.1
    have h2 : 0 ≤ wv * m.coverage := mul_nonneg hwv hv.1
    have h3 : 0 ≤ wt * m.texture := mul_nonneg hwt ht.1
    linarith
  · rw [div_le_one hsum]
    have h1 : wc * m.color ≤ wc := mul_le_of_le_one_right hwc hc.2
    have h2 : wv * m.coverage ≤ wv := mul_le_of_le_one_right hwv hv.2
    have h3 : wt * m.texture ≤ wt := mul_le_of_le_one_right hwt ht.2
    linarith

/-- A running maximum is bounded by any bound on the seed and the
elements. -/
lemma foldl_max_le_of {α : Type} [LinearOrder α] (l : List α) (b : α) :
    ∀ a, a ≤ b → (∀ x ∈ l, x ≤ b) → l.foldl max a ≤ b := by
  induction l with
  | nil => intro a ha _; exact ha
  | cons c t ih =>
      intro a ha hl
      simp only [List.foldl_cons]
      exact ih (max a c)
        (max_le ha (hl c (List.mem_cons_self c t)))
        (fun x hx => hl x (List.mem_cons_of_mem c hx))

/-- The seed bounds a running maximum from below. -/
lemma le_foldl_max {α : Type} [LinearOrder α] (l : List α) :
    ∀ a : α, a ≤ l.foldl max a := by
  induction l with
  | nil => intro a; exact le_refl a
  | cons c t ih =>
      intro a
      simp only [List.foldl_cons]
      exact le_trans (le_max_left a c) (ih (max a c))

/-- A quotient of a filtered length by the full length lies in the
unit interval. -/
lemma filter_length_div_bounds {α : Type} (l : List α) (p : α → Bool) :
    0 ≤ ((l.filter p).length : ℚ) / (l.length : ℚ) ∧
      ((l.filter p).length : ℚ) / (l.length : ℚ) ≤ 1 := by
  constructor
  · exact div_nonneg (by positivity) (by positivity)
  · rcases Nat.eq_zero_or_pos l.length with h | h
    · simp [h]
    · rw [div_le_one (by exact_mod_cast h)]
      exact_mod_cast List.length_filter_le p l

/-- The severity of a built region lies in the unit interval. -/
lemma mkRegion_severity_bounds {wc wv wt : ℚ} (hwc : 0 ≤ wc) (hwv : 0 ≤ wv)
    (hwt : 0 ≤ wt) (hsum : 0 < wc + wv + wt) (highThr : ℚ)
    (cellSize : ℕ) (bimg aimg : Image) (comp : List (ℕ × ℕ)) :
    0 ≤ (mkRegion wc wv wt highThr (comp.map (cellMetric cellSize bimg aimg))).severity ∧
    (mkRegion wc wv wt highThr (comp.map (cellMetric cellSize bimg aimg))).severity ≤ 1 := by
  unfold mkRegion
  simp only
  constructor
  · exact le_foldl_max _ 0
  · apply foldl_max_le_of _ _ _ (by norm_num)
    intro q hq
    rw [List.map_map] at hq
    obtain ⟨rc, -, rfl⟩ := List.mem_map.mp hq
    obtain ⟨hc, hv, ht⟩ := cellMetric_scores_bounds cellSize bimg aimg rc
    exact (fusedSeverity_bounds hwc hwv hwt hsum _ hc hv ht).2

/-- The confidence of a built region lies in the unit interval. -/
lemma mkRegion_confidence_bounds (wc wv wt highThr : ℚ) (ms : List CellMetric) :
    0 ≤ (mkRegion wc wv wt highThr ms).confidence ∧
    (mkRegion wc wv wt highThr ms).confidence ≤ 1 := by
  unfold mkRegion
  simp only
  exact filter_length_div_bounds ms _

/-- The issue label of a built region is one of the four closed
codes. -/
lemma mkRegion_issue_code (wc wv wt highThr : ℚ) (ms : List CellMetric) :
    (mkRegion wc wv wt highThr ms).issue_type ∈
      ["uneven_coverage", "color_inconsistency", "over_application",
        "texture_variation"] := by
  unfold mkRegion
  simp only
  rcases h : classifyRegion wc wv wt highThr ms with _ | _ | _ | _ <;>
    simp [IssueType.code]

/-- Membership in the grid cell list is exactly the row and column
bounds. -/
lemma mem_gridCells {w h cs : ℕ} {rc : ℕ × ℕ} :
    rc ∈ gridCells w h cs ↔ rc.1 < gridRows h cs ∧ rc.2 < gridCols w cs := by
  unfold gridCells
  rcases rc with ⟨r, c⟩
  simp [List.mem_flatten, List.mem_map, List.mem_range]

/-- Flagged cells are grid cells. -/
lemma flaggedCells_subset (wc wv wt detThr : ℚ) (cellSize : ℕ)
    (bimg aimg : Image) :
    flaggedCells wc wv wt detThr cellSize bimg aimg ⊆
      gridCells bimg.width bimg.height cellSize :=
  fun _ ha => List.mem_of_mem_filter ha

/-- The bounding box of a region whose member cells respect the grid
bounds lies within the image. -/
lemma mkRegion_bbox_within (wc wv wt highThr : ℚ) (cellSize : ℕ)
    (bimg aimg : Image) (comp : List (ℕ × ℕ)) (hcs : 0 < cellSize)
    (hmem : ∀ rc ∈ comp, rc.1 < gridRows bimg.height cellSize ∧
      rc.2 < gridCols bimg.width cellSize) :
    (mkRegion wc wv wt highThr (comp.map (cellMetric cellSize bimg aimg))).x +
      (mkRegion wc wv wt highThr (comp.map (cellMetric cellSize bimg aimg))).width ≤
        bimg.width ∧
    (mkRegion wc wv wt highThr (comp.map (cellMetric cellSize bimg aimg))).y +
      (mkRegion wc wv wt highThr (comp.map (cellMetric cellSize bimg aimg))).height ≤
        bimg.height := by
  unfold mkRegion
  simp only [List.map_map]
  have hrect : (CellMetric.rect ∘ cellMetric cellSize bimg aimg) =
      fun rc : ℕ × ℕ => cellRect bimg.width bimg.height cellSize rc.1 rc.2 := by
    funext rc
    simp [cellMetric]
  rw [hrect]
  cases comp with
  | nil =>
      simp [boundingBox]
  | cons r rs =>
      have hbb : boundingBox
          ((r :: rs).map (fun rc : ℕ × ℕ =>
            cellRect bimg.width bimg.height cellSize rc.1 rc.2)) =
          (rs.map (fun rc : ℕ × ℕ =>
            cellRect bimg.width bimg.height cellSize rc.1 rc.2)).foldl rectUnion
            (cellRect bimg.width bimg.height cellSize r.1 r.2) := by
        simp [boundingBox]
      rw [hbb]
      have hhead := cellRect_within bimg.width bimg.height cellSize r.1 r.2 hcs
        (hmem r (List.mem_cons_self r rs)).1 (hmem r (List.mem_cons_self r rs)).2
      constructor
      · rw [foldl_rectUnion_right, List.map_map]
        apply foldl_max_le_of _ _ _ hhead.1
        intro q hq
        obtain ⟨rc, hrc, rfl⟩ := List.mem_map.mp hq
        exact (cellRect_within bimg.width bimg.height cellSize rc.1 rc.2 hcs
          (hmem rc (List.mem_cons_of_mem r hrc)).1
          (hmem rc (List.mem_cons_of_mem r hrc)).2).1
      · rw [foldl_rectUnion_bottom, List.map_map]
        apply foldl_max_le_of _ _ _ hhead.2
        intro q hq
        obtain ⟨rc, hrc, rfl⟩ := List.mem_map.mp hq
        exact (cellRect_within bimg.width bimg.height cellSize rc.1 rc.2 hcs
          (hmem rc (List.mem_cons_of_mem r hrc)).1
          (hmem rc (List.mem_cons_of_mem r hrc)).2).2

/-- C1: for every image pair and valid configuration, the overall
score lies between 0 and 100, and every problem region has severity
and confidence in the unit interval and a bounding rectangle within
the image bounds. -/
theorem analysis_result_bounds (cfg : Config) (bimg aimg : Image)
    (hcfg : cfg.Valid) :
    0 ≤ (analyzeImages cfg bimg aimg).overall_score ∧
    (analyzeImages cfg bimg aimg).overall_score ≤ 100 ∧
    ∀ reg ∈ (analyzeImages cfg bimg aimg).problem_regions,
      (0 ≤ reg.severity ∧ reg.severity ≤ 1) ∧
      (0 ≤ reg.confidence ∧ reg.confidence ≤ 1) ∧
      reg.x + reg.width ≤ bimg.width ∧ reg.y + reg.height ≤ bimg.height := by
  obtain ⟨hcs, -, hwc, hwv, hwt, hsum, -, -, -⟩ := hcfg
  refine ⟨le_max_left 0 _, max_le (by norm_num) (min_le_left 100 _), ?_⟩
  intro reg hreg
  simp only [analyzeImages, problemRegions, List.mem_map] at hreg
  obtain ⟨comp, hcomp, rfl⟩ := hreg
  refine ⟨mkRegion_severity_bounds hwc hwv hwt hsum _ _ _ _ _,
    mkRegion_confidence_bounds _ _ _ _ _, ?_⟩
  apply mkRegion_bbox_within _ _ _ _ _ _ _ _ hcs
  intro rc hrc
  have hflag := components_member_flagged _ comp hcomp rc hrc
  exact mem_gridCells.mp (flaggedCells_subset _ _ _ _ _ _ _ hflag)

/-- Witness for C1 on the identical gray pair with a valid
configuration. -/
theorem analysis_result_bounds_witness :
    Config.Valid ⟨2, 1/10, -20, 20, 1, 1, 1, 1/10, 1, 1, 1, 1000, 1⟩ ∧
    0 ≤ (analyzeImages ⟨2, 1/10, -20, 20, 1, 1, 1, 1/10, 1, 1, 1, 1000, 1⟩
      ⟨1, 1, [[⟨200, 200, 200⟩]]⟩ ⟨1, 1, [[⟨100, 100, 100⟩]]⟩).overall_score := by
  have hv : Config.Valid ⟨2, 1/10, -20, 20, 1, 1, 1, 1/10, 1, 1, 1, 1000, 1⟩ := by
    refine ⟨?_, ?_, ?_, ?_, ?_, ?_, ?_, ?_, ?_⟩ <;> norm_num
  exact ⟨hv, (analysis_result_bounds ⟨2, 1/10, -20, 20, 1, 1, 1, 1/10, 1, 1, 1, 1000, 1⟩
      ⟨1, 1, [[⟨200, 200, 200⟩]]⟩ ⟨1, 1, [[⟨100, 100, 100⟩]]⟩ hv).1⟩

/-- C8: every problem region of every analysis result carries an
issue label drawn from exactly the closed four-element set, and a
severity and confidence in the unit interval. -/
theorem issue_type_closed (cfg : Config) (bimg aimg : Image) (hcfg : cfg.Valid) :
    ∀ reg ∈ (analyzeImages cfg bimg aimg).problem_regions,
      reg.issue_type ∈ ["uneven_coverage", "color_inconsistency",
        "over_application", "texture_variation"] ∧
      (0 ≤ reg.severity ∧ reg.severity ≤ 1) ∧
      (0 ≤ reg.confidence ∧ reg.confidence ≤ 1) := by
  obtain ⟨-, -, hwc, hwv, hwt, hsum, -, -, -⟩ := hcfg
  intro reg hreg
  simp only [analyzeImages, problemRegions, List.mem_map] at hreg
  obtain ⟨comp, hcomp, rfl⟩ := hreg
  exact ⟨mkRegion_issue_code _ _ _ _ _,
    mkRegion_severity_bounds hwc hwv hwt hsum _ _ _ _ _,
    mkRegion_confidence_bounds _ _ _ _ _⟩

/-- Witness for C8 on a one-cell pair whose color changes, which
produces a region with a label from the closed set. -/
theorem issue_type_closed_witness :
    Config.Valid ⟨2, 1/10, -20, 20, 1, 1, 1, 1/10, 1, 1, 1, 1000, 1⟩ ∧
    ∀ reg ∈ (analyzeImages ⟨2, 1/10, -20, 20, 1, 1, 1, 1/10, 1, 1, 1, 1000, 1⟩
        ⟨1, 1, [[⟨200, 200, 200⟩]]⟩ ⟨1, 1, [[⟨100, 100, 100⟩]]⟩).problem_regions,
      reg.issue_type ∈ ["uneven_coverage", "color_inconsistency",
        "over_application", "texture_variation"] ∧
      (0 ≤ reg.severity ∧ reg.severity ≤ 1) ∧
      (0 ≤ reg.confidence ∧ reg.confidence ≤ 1) := by
  have hv : Config.Valid ⟨2, 1/10, -20, 20, 1, 1, 1, 1/10, 1, 1, 1, 1000, 1⟩ := by
    refine ⟨?_, ?_, ?_, ?_, ?_, ?_, ?_, ?_, ?_⟩ <;> norm_num
  exact ⟨hv, issue_type_closed ⟨2, 1/10, -20, 20, 1, 1, 1, 1/10, 1, 1, 1, 1000, 1⟩
    ⟨1, 1, [[⟨200, 200, 200⟩]]⟩ ⟨1, 1, [[⟨100, 100, 100⟩]]⟩ hv⟩

/-! ## Identity-case lemmas -/

/-- Comparing an image with itself yields zero metrics in every
cell. -/
lemma cellMetric_self (cs : ℕ) (img : Image) (rc : ℕ × ℕ) :
    (cellMetric cs img img rc).color = 0 ∧
    (cellMetric cs img img rc).coverage = 0 ∧
    (cellMetric cs img img rc).texture = 0 ∧
    (cellMetric cs img img rc).delta = 0 := by
  unfold cellMetric colorScore coverageScore textureScore intensityDelta clamp01
  simp only [sub_self, abs_zero, add_zero, zero_add, zero_div, abs_zero]
  norm_num

/-- The fused severity of a zero metric vanishes. -/
lemma fusedSeverity_zero (wc wv wt : ℚ) (m : CellMetric)
    (hc : m.color = 0) (hv : m.coverage = 0) (ht : m.texture = 0) :
    fusedSeverity wc wv wt m = 0 := by
  unfold fusedSeverity
  rw [hc, hv, ht]
  simp

/-- Comparing an image with itself flags no cell when the detection
threshold is nonnegative. -/
lemma flaggedCells_self (wc wv wt detThr : ℚ) (cs : ℕ) (img : Image)
    (hdet : 0 ≤ detThr) :
    flaggedCells wc wv wt detThr cs img img = [] := by
  unfold flaggedCells
  apply List.filter_eq_nil_iff.mpr
  intro rc _
  obtain ⟨hc, hv, ht, -⟩ := cellMetric_self cs img rc
  rw [fusedSeverity_zero wc wv wt _ hc hv ht]
  simp only [decide_eq_true_eq]
  exact not_lt.mpr hdet

/-- C3: comparing a pixel-identical pair yields zero issues, a full
score of 100, zero change percentage, and a perfect texture
consistency score of one. -/
theorem identity_case (cfg : Config) (img : Image) (hcfg : cfg.Valid) :
    (analyzeImages cfg img img).issues_detected = 0 ∧
    (analyzeImages cfg img img).overall_score = 100 ∧
    (analyzeImages cfg img img).color_analysis.change_percentage = 0 ∧
    (analyzeImages cfg img img).texture_analysis.texture_consistency_score = 1 := by
  obtain ⟨-, -, -, -, -, -, hct, hdet, hlow⟩ := hcfg
  have hflag := flaggedCells_self cfg.fusionColorWeight cfg.fusionCoverageWeight
    cfg.fusionTextureWeight cfg.detectionThreshold cfg.cellSize img hdet
  have hzero : ∀ m ∈ allMetrics cfg.cellSize img img,
      m.color = 0 ∧ m.coverage = 0 ∧ m.texture = 0 ∧ m.delta = 0 := by
    intro m hm
    obtain ⟨rc, -, rfl⟩ := List.mem_map.mp hm
    exact cellMetric_self cfg.cellSize img rc
  have hchange : (colorStats cfg.colorChangedThreshold
      (allMetrics cfg.cellSize img img)).change_percentage = 0 := by
    unfold colorStats listPercent
    simp only
    have hnil : ((allMetrics cfg.cellSize img img).map
        (fun m => m.color)).filter (fun q => decide (cfg.colorChangedThreshold < q)) =
          [] := by
      apply List.filter_eq_nil_iff.mpr
      intro q hq
      obtain ⟨m, hm, rfl⟩ := List.mem_map.mp hq
      rw [(hzero m hm).1]
      simp only [decide_eq_true_eq]
      exact not_lt.mpr hct
    rw [hnil]
    simp
  have hpoor : (coverageStats cfg.coverageLowThreshold
      (allMetrics cfg.cellSize img img)).poor_coverage_percentage = 0 := by
    unfold coverageStats listPercent
    simp only
    have hnil : ((allMetrics cfg.cellSize img img).map
        (fun m => m.delta)).filter (fun q => decide (q < cfg.coverageLowThreshold)) =
          [] := by
      apply List.filter_eq_nil_iff.mpr
      intro q hq
      obtain ⟨m, hm, rfl⟩ := List.mem_map.mp hq
      rw [(hzero m hm).2.2.2]
      simp only [decide_eq_true_eq]
      exact not_lt.mpr hlow
    rw [hnil]
    simp
  have htex : (textureStats (allMetrics cfg.cellSize img img)).texture_consistency_score
      = 1 := by
    unfold textureStats listMean
    simp only
    have hsum : ((allMetrics cfg.cellSize img img).map (fun m => m.texture)).sum = 0 := by
      apply List.sum_eq_zero
      intro q hq
      obtain ⟨m, hm, rfl⟩ := List.mem_map.mp hq
      exact (hzero m hm).2.2.1
    rw [hsum]
    simp
  refine ⟨?_, ?_, ?_, ?_⟩
  · simp only [analyzeImages, problemRegions, hflag]
    rfl
  · simp only [analyzeImages, overallScore, hchange, hpoor, htex]
    norm_num
  · simp only [analyzeImages]
    exact hchange
  · simp only [analyzeImages]
    exact htex

/-- Witness for C3 on a concrete two-pixel gray image. -/
theorem identity_case_witness :
    Config.Valid ⟨2, 1/10, -20, 20, 1, 1, 1, 1/10, 1, 1, 1, 1000, 1⟩ ∧
    (analyzeImages ⟨2, 1/10, -20, 20, 1, 1, 1, 1/10, 1, 1, 1, 1000, 1⟩
      ⟨2, 1, [[⟨200, 200, 200⟩, ⟨10, 20, 30⟩]]⟩
      ⟨2, 1, [[⟨200, 200, 200⟩, ⟨10, 20, 30⟩]]⟩).issues_detected = 0 ∧
    (analyzeImages ⟨2, 1/10, -20, 20, 1, 1, 1, 1/10, 1, 1, 1, 1000, 1⟩
      ⟨2, 1, [[⟨200, 200, 200⟩, ⟨10, 20, 30⟩]]⟩
      ⟨2, 1, [[⟨200, 200, 200⟩, ⟨10, 20, 30⟩]]⟩).overall_score = 100 := by
  have hv : Config.Valid ⟨2, 1/10, -20, 20, 1, 1, 1, 1/10, 1, 1, 1, 1000, 1⟩ := by
    refine ⟨?_, ?_, ?_, ?_, ?_, ?_, ?_, ?_, ?_⟩ <;> norm_num
  have h := identity_case ⟨2, 1/10, -20, 20, 1, 1, 1, 1/10, 1, 1, 1, 1000, 1⟩
    ⟨2, 1, [[⟨200, 200, 200⟩, ⟨10, 20, 30⟩]]⟩ hv
  exact ⟨hv, h.1, h.2.1⟩

/-- C5: raising the color-distance changed threshold while holding
everything else fixed never increases the issue count; in this
pipeline cells are flagged by the fused severity against the fusion
detection threshold, so the color-distance threshold only feeds the
global change percentage and the region count is unchanged. -/
theorem issues_monotone_color_threshold (cfg : Config) (bimg aimg : Image)
    (t1 t2 : ℚ) (_h12 : t1 ≤ t2) :
    (analyzeImages { cfg with colorChangedThreshold := t2 } bimg aimg).issues_detected ≤
    (analyzeImages { cfg with colorChangedThreshold := t1 } bimg aimg).issues_detected := by
  have h : ∀ t : ℚ,
      (analyzeImages { cfg with colorChangedThreshold := t } bimg aimg).issues_detected =
      (analyzeImages cfg bimg aimg).issues_detected := fun t => rfl
  rw [h t1, h t2]

/-- Witness for C5 at two concrete thresholds on a one-pixel pair. -/
theorem issues_monotone_color_threshold_witness :
    (1 : ℚ)/10 ≤ 1/2 ∧
    (analyzeImages { (⟨2, 1/10, -20, 20, 1, 1, 1, 1/10, 1, 1, 1, 1000, 1⟩ : Config) with
        colorChangedThreshold := 1/2 }
      ⟨1, 1, [[⟨200, 200, 200⟩]]⟩ ⟨1, 1, [[⟨100, 100, 100⟩]]⟩).issues_detected ≤
    (analyzeImages { (⟨2, 1/10, -20, 20, 1, 1, 1, 1/10, 1, 1, 1, 1000, 1⟩ : Config) with
        colorChangedThreshold := 1/10 }
      ⟨1, 1, [[⟨200, 200, 200⟩]]⟩ ⟨1, 1, [[⟨100, 100, 100⟩]]⟩).issues_detected :=
  ⟨by norm_num,
   issues_monotone_color_threshold ⟨2, 1/10, -20, 20, 1, 1, 1, 1/10, 1, 1, 1, 1000, 1⟩
     ⟨1, 1, [[⟨200, 200, 200⟩]]⟩ ⟨1, 1, [[⟨100, 100, 100⟩]]⟩ (1/10) (1/2) (by norm_num)⟩

/-- C2: the analysis is deterministic; identical byte inputs under an
identical configuration produce identical results, in particular the
same score, the same ordered region list and the same recommendation
list, with no hidden randomness in the pipeline. -/
theorem analyze_deterministic (cfg1 cfg2 : Config) (b1 a1 b2 a2 : List ℕ)
    (hcfg : cfg1 = cfg2) (hb : b1 = b2) (ha : a1 = a2) :
    analyze cfg1 b1 a1 = analyze cfg2 b2 a2 ∧
    ∀ r1 r2, analyze cfg1 b1 a1 = Except.ok r1 → analyze cfg2 b2 a2 = Except.ok r2 →
      r1.overall_score = r2.overall_score ∧
      r1.problem_regions = r2.problem_regions ∧
      r1.recommendations = r2.recommendations := by
  subst hcfg
  subst hb
  subst ha
  refine ⟨rfl, ?_⟩
  intro r1 r2 h1 h2
  rw [h1] at h2
  cases h2
  exact ⟨rfl, rfl, rfl⟩

/-- Witness for C2 on concrete byte-identical inputs. -/
theorem analyze_deterministic_witness :
    analyze ⟨2, 1/10, -20, 20, 1, 1, 1, 1/10, 1, 1, 1, 1000, 1⟩
      [1, 1, 10, 20, 30] [1, 1, 10, 20, 30] =
    analyze ⟨2, 1/10, -20, 20, 1, 1, 1, 1/10, 1, 1, 1, 1000, 1⟩
      [1, 1, 10, 20, 30] [1, 1, 10, 20, 30] :=
  (analyze_deterministic ⟨2, 1/10, -20, 20, 1, 1, 1, 1/10, 1, 1, 1, 1000, 1⟩
    ⟨2, 1/10, -20, 20, 1, 1, 1, 1/10, 1, 1, 1, 1000, 1⟩
    [1, 1, 10, 20, 30] [1, 1, 10, 20, 30] [1, 1, 10, 20, 30] [1, 1, 10, 20, 30]
    rfl rfl rfl).1

/-! ## Error-path lemmas -/

/-- Loading one image fails only with one of the three declared
errors, each carrying its kind and a message naming the image. -/
lemma loadImage_error_cases (cfg : Config) (w : String) (bytes : List ℕ)
    (e : AnalysisError) (h : loadImage cfg w bytes = .error e) :
    (e.kind = ErrorKind.validationError ∧
      e.message = w ++ " image exceeds the maximum upload size") ∨
    (e.kind = ErrorKind.decodeError ∧
      e.message = w ++ " image could not be decoded") ∨
    (e.kind = ErrorKind.validationError ∧
      e.message = w ++ " image is below the minimum dimensions") := by
  unfold loadImage at h
  split at h
  · cases h
    exact Or.inl ⟨rfl, rfl⟩
  · split at h
    · cases h
      exact Or.inr (Or.inl ⟨rfl, rfl⟩)
    · split at h
      · cases h
        exact Or.inr (Or.inr ⟨rfl, rfl⟩)
      · cases h

/-- A failing load of the pair is a failing load of one image, with
the before image checked first. -/
lemma loadPair_error_cases (cfg : Config) (b a : List ℕ) (e : AnalysisError)
    (h : loadPair cfg b a = .error e) :
    loadImage cfg "before" b = .error e ∨
    (∃ bimg, loadImage cfg "before" b = .ok bimg ∧
      loadImage cfg "after" a = .error e) := by
  unfold loadPair at h
  cases hb : loadImage cfg "before" b with
  | error e1 =>
      simp only [hb] at h
      cases h
      exact Or.inl rfl
  | ok bimg =>
      simp only [hb] at h
      cases ha : loadImage cfg "after" a with
      | error e2 =>
          simp only [ha] at h
          cases h
          exact Or.inr ⟨bimg, rfl, rfl⟩
      | ok aimg =>
          simp only [ha] at h
          cases h

/-- A pair-loading failure carries a decode or validation kind and a
nonempty human-readable message. -/
lemma loadPair_error_info (cfg : Config) (b a : List ℕ) (e : AnalysisError)
    (h : loadPair cfg b a = .error e) :
    (e.kind = ErrorKind.decodeError ∨ e.kind = ErrorKind.validationError) ∧
    e.message ≠ "" := by
  rcases loadPair_error_cases cfg b a e h with hb | ⟨bimg, -, ha⟩
  · rcases loadImage_error_cases cfg "before" b e hb with
      ⟨hk, hm⟩ | ⟨hk, hm⟩ | ⟨hk, hm⟩
    · exact ⟨Or.inr hk, by rw [hm]; decide⟩
    · exact ⟨Or.inl hk, by rw [hm]; decide⟩
    · exact ⟨Or.inr hk, by rw [hm]; decide⟩
  · rcases loadImage_error_cases cfg "after" a e ha with
      ⟨hk, hm⟩ | ⟨hk, hm⟩ | ⟨hk, hm⟩
    · exact ⟨Or.inr hk, by rw [hm]; decide⟩
    · exact ⟨Or.inl hk, by rw [hm]; decide⟩
    · exact ⟨Or.inr hk, by rw [hm]; decide⟩

/-- C7: decode and validation failures are terminal for the whole
analysis; the operation returns the failure as a pure value carrying
the error kind and a nonempty message, computes no score from one
valid image, and on success returns the full analysis, so every
outcome is an ordinary return value of the result type. -/
theorem errors_terminal_pure (cfg : Config) (b a : List ℕ) :
    (∀ e, loadPair cfg b a = .error e →
      analyze cfg b a = Except.error e ∧
      (e.kind = ErrorKind.decodeError ∨ e.kind = ErrorKind.validationError) ∧
      e.message ≠ "") ∧
    (∀ bimg aimg, loadPair cfg b a = .ok (bimg, aimg) →
      analyze cfg b a = Except.ok (analyzeImages cfg bimg aimg)) := by
  constructor
  · intro e h
    have hinfo := loadPair_error_info cfg b a e h
    refine ⟨?_, hinfo.1, hinfo.2⟩
    simp only [analyze, h]
  · intro bimg aimg h
    simp only [analyze, h]

/-- Witness for C7: an oversized before image is rejected as a
validation error without computing any analysis. -/
theorem errors_terminal_pure_witness :
    loadPair ⟨2, 1/10, -20, 20, 1, 1, 1, 1/10, 1, 1, 1, 3, 1⟩
      [1, 1, 10, 20, 30] [1, 1, 10, 20, 30] =
      Except.error ⟨ErrorKind.validationError,
        "before image exceeds the maximum upload size"⟩ ∧
    analyze ⟨2, 1/10, -20, 20, 1, 1, 1, 1/10, 1, 1, 1, 3, 1⟩
      [1, 1, 10, 20, 30] [1, 1, 10, 20, 30] =
      Except.error ⟨ErrorKind.validationError,
        "before image exceeds the maximum upload size"⟩ := by
  have hload : loadPair ⟨2, 1/10, -20, 20, 1, 1, 1, 1/10, 1, 1, 1, 3, 1⟩
      [1, 1, 10, 20, 30] [1, 1, 10, 20, 30] =
      Except.error ⟨ErrorKind.validationError,
        "before image exceeds the maximum upload size"⟩ := rfl
  exact ⟨hload,
    ((errors_terminal_pure ⟨2, 1/10, -20, 20, 1, 1, 1, 1/10, 1, 1, 1, 3, 1⟩
      [1, 1, 10, 20, 30] [1, 1, 10, 20, 30]).1 _ hload).1⟩

/-- Witness for C10 at a concrete mid-range severity. -/
theorem severity_classifiers_agree_witness :
    getSeverityLabel (1/2) = "Moderate" ∧ getSeverityColor (1/2) = "warning" := by
  have h := severity_classifiers_agree (1/2)
  have hm : getSeverityLabel (1/2) = "Moderate" :=
    (h.2.1).mpr ⟨by norm_num, by norm_num⟩
  exact ⟨hm, (h.2.2.2.2.1).mpr hm⟩
